import Mathlib

/-!
# Verification of the heterogeneous-schema reconciliation scripts

Shallow embedding of the core routines of the CSV reconciliation corpus
(`analyze_trustees_csv.py`, `analyze_societies_simple.py`): header
normalization (`normalize_text`), date-format classification
(`detect_date_format`, and the inline ISO-date semantic validation of the
societies analyzer), fuzzy field mapping (`create_field_mapping`,
`fuzzy_match`), per-file completeness (`analyze_file`,
`analyze_data_quality`) and the per-file orchestration (`run_analysis`).

Strings are modelled as `List Char`.  Python's Unicode facilities are
modelled over a representative character set: `str.strip` / `str.split`
use the ASCII whitespace class plus U+00A0, `str.lower` lowers ASCII
letters, and `unicodedata.normalize('NFKD', _)` is modelled as a
per-character decomposition table containing representative precomposed
characters, every output character of which is decomposition-stable (as
in real NFKD).  Machine floats in the sources appear only as
`filled/total*100` and the `0.7` fuzzy threshold; they are modelled as
exact rationals.
-/

/-- Python whitespace class (ASCII whitespace plus the no-break space),
as used by `str.strip()` and `str.split()`. -/
def pySpace (c : Char) : Bool :=
  c.toNat = 32 || c.toNat = 9 || c.toNat = 10 || c.toNat = 13 ||
  c.toNat = 11 || c.toNat = 12 || c.toNat = 160

/-- Python `str.strip()`: drop leading and trailing whitespace. -/
def pyStrip (l : List Char) : List Char :=
  ((l.dropWhile pySpace).reverse.dropWhile pySpace).reverse

/-- Accumulator worker for `str.split()` (split on whitespace runs,
dropping empty pieces).  `acc` holds the current word, reversed. -/
def wordsAux : List Char → List Char → List (List Char)
  | [], acc => if acc = [] then [] else [acc.reverse]
  | c :: cs, acc =>
    if pySpace c then
      if acc = [] then wordsAux cs [] else acc.reverse :: wordsAux cs []
    else
      wordsAux cs (c :: acc)

/-- Python `str.split()` with no argument, as used in `normalize_text`. -/
def pyWords (l : List Char) : List (List Char) := wordsAux l []

/-- Python `' '.join(ws)`. -/
def joinSpace (ws : List (List Char)) : List Char := List.intercalate [' '] ws

/-- Model of Python `str.lower()` over the modelled character set:
ASCII letters (codepoints 65-90) are lowered, everything else is fixed. -/
def lowerChar (c : Char) : Char :=
  if 65 ≤ c.toNat ∧ c.toNat ≤ 90 then Char.ofNat (c.toNat + 32) else c

/-- Model of `unicodedata.normalize('NFKD', _)`, per character:
a decomposition table with representative precomposed characters
(codepoint 233 = acute-accented e to e + combining acute 769, codepoint
201 likewise for E), identity elsewhere.  As in real NFKD, every
character produced by the table is itself decomposition-stable. -/
def nfkdChar (c : Char) : List Char :=
  if c.toNat = 233 then ['e', Char.ofNat 769]
  else if c.toNat = 201 then ['E', Char.ofNat 769]
  else [c]

/-- Model of `unicodedata.normalize('NFKD', _)` over a whole string. -/
def nfkd (l : List Char) : List Char := l.flatMap nfkdChar

/-- Embedding of `TrusteesCSVAnalyzer.normalize_text` (analyze_trustees_csv.py:72-84):
empty input is returned unchanged; otherwise strip, NFKD-decompose,
collapse whitespace runs to single spaces via `' '.join(text.split())`,
and lowercase. -/
def normalize_text (text : List Char) : List Char :=
  if text = [] then []
  else (joinSpace (pyWords (nfkd (pyStrip text)))).map lowerChar

example : normalize_text " PT Cause No ".toList = "pt cause no".toList := by decide
example : normalize_text "pt   cause   no".toList = "pt cause no".toList := by decide
example : normalize_text "Café  Bar".toList =
    ['c', 'a', 'f', 'e', Char.ofNat 769, ' ', 'b', 'a', 'r'] := by decide

/-! ### Character-level lemmas for the normalizer -/

lemma toNat_ofNat_small {n : Nat} (h : n < 55296) : (Char.ofNat n).toNat = n := by
  unfold Char.ofNat
  rw [dif_pos (Or.inl h)]
  simp [Char.ofNatAux, Char.toNat, UInt32.toNat, BitVec.toNat_ofNatLt]

lemma char_toNat_lt (c : Char) : c.toNat < 1114112 := by
  have h := c.valid
  rcases h with h | h
  · exact Nat.lt_trans h (by norm_num)
  · exact h.2

lemma lowerChar_toNat (c : Char) :
    (lowerChar c).toNat =
      if 65 ≤ c.toNat ∧ c.toNat ≤ 90 then c.toNat + 32 else c.toNat := by
  unfold lowerChar
  split
  · next h => exact toNat_ofNat_small (by omega)
  · rfl

lemma lowerChar_eq_self {c : Char} (h : ¬(65 ≤ c.toNat ∧ c.toNat ≤ 90)) :
    lowerChar c = c := if_neg h

lemma lowerChar_idem (c : Char) : lowerChar (lowerChar c) = lowerChar c := by
  by_cases h : 65 ≤ c.toNat ∧ c.toNat ≤ 90
  · apply lowerChar_eq_self
    rw [lowerChar_toNat, if_pos h]
    omega
  · rw [lowerChar_eq_self h, lowerChar_eq_self h]

lemma pySpace_lowerChar (c : Char) : pySpace (lowerChar c) = pySpace c := by
  unfold pySpace
  rw [lowerChar_toNat]
  split
  · next h =>
    rw [Bool.eq_iff_iff]
    simp only [Bool.or_eq_true, decide_eq_true_eq]
    omega
  · rfl

/-- A character is decomposition-stable when the modelled NFKD leaves it
alone.  Every character the table produces is stable. -/
lemma nfkdChar_eq_self {c : Char} (h1 : c.toNat ≠ 233) (h2 : c.toNat ≠ 201) :
    nfkdChar c = [c] := by
  unfold nfkdChar
  rw [if_neg (by simpa using h1), if_neg (by simpa using h2)]

lemma nfkdChar_stable {c d : Char} (h : d ∈ nfkdChar c) : nfkdChar d = [d] := by
  unfold nfkdChar at h
  split at h
  · rcases List.mem_pair.mp h with rfl | rfl <;> decide
  · split at h
    · rcases List.mem_pair.mp h with rfl | rfl <;> decide
    · next h1 h2 =>
      rcases List.mem_singleton.mp h with rfl
      exact nfkdChar_eq_self (by simpa using h1) (by simpa using h2)

lemma nfkdChar_lowerChar {c : Char} (h : nfkdChar c = [c]) :
    nfkdChar (lowerChar c) = [lowerChar c] := by
  by_cases hr : 65 ≤ c.toNat ∧ c.toNat ≤ 90
  · apply nfkdChar_eq_self <;> rw [lowerChar_toNat, if_pos hr] <;> omega
  · rwa [lowerChar_eq_self hr]

lemma nfkd_eq_self {l : List Char} (h : ∀ c ∈ l, nfkdChar c = [c]) :
    nfkd l = l := by
  induction l with
  | nil => rfl
  | cons c cs ih =>
    have hc := h c (List.mem_cons_self c cs)
    have ih' := ih fun d hd => h d (List.mem_cons_of_mem c hd)
    simp only [nfkd, List.flatMap_cons] at *
    rw [hc, ih']
    rfl

lemma nfkd_chars_stable {l : List Char} {c : Char} (h : c ∈ nfkd l) :
    nfkdChar c = [c] := by
  rcases List.mem_flatMap.mp h with ⟨a, _, hc⟩
  exact nfkdChar_stable hc

/-! ### `str.split()` / `' '.join` lemmas -/

/-- A canonical word: nonempty, with no whitespace characters. -/
def IsWord (w : List Char) : Prop := w ≠ [] ∧ ∀ c ∈ w, pySpace c = false

lemma wordsAux_sound :
    ∀ (l acc : List Char), (∀ c ∈ acc, pySpace c = false) →
      ∀ w ∈ wordsAux l acc, IsWord w := by
  intro l
  induction l with
  | nil =>
    intro acc hacc w hw
    unfold wordsAux at hw
    split at hw
    · simp at hw
    · next hne =>
      rcases List.mem_singleton.mp hw with rfl
      refine ⟨by simpa using hne, ?_⟩
      intro c hc
      exact hacc c (List.mem_reverse.mp hc)
  | cons c cs ih =>
    intro acc hacc w hw
    unfold wordsAux at hw
    split at hw
    · split at hw
      · exact ih [] (by simp) w hw
      · rcases List.mem_cons.mp hw with rfl | hw'
        · refine ⟨by simpa using ‹acc ≠ []›, ?_⟩
          intro d hd
          exact hacc d (List.mem_reverse.mp hd)
        · exact ih [] (by simp) w hw'
    · next hc =>
      refine ih (c :: acc) ?_ w hw
      intro d hd
      rcases List.mem_cons.mp hd with rfl | hd'
      · exact Bool.of_not_eq_true hc
      · exact hacc d hd'

lemma wordsAux_chars :
    ∀ (l acc : List Char), ∀ w ∈ wordsAux l acc, ∀ c ∈ w, c ∈ l ∨ c ∈ acc := by
  intro l
  induction l with
  | nil =>
    intro acc w hw c hc
    unfold wordsAux at hw
    split at hw
    · simp at hw
    · rcases List.mem_singleton.mp hw with rfl
      exact Or.inr (List.mem_reverse.mp hc)
  | cons a as ih =>
    intro acc w hw c hc
    unfold wordsAux at hw
    split at hw
    · split at hw
      · rcases ih [] w hw c hc with h | h
        · exact Or.inl (List.mem_cons_of_mem a h)
        · simp at h
      · rcases List.mem_cons.mp hw with rfl | hw'
        · exact Or.inr (List.mem_reverse.mp hc)
        · rcases ih [] w hw' c hc with h | h
          · exact Or.inl (List.mem_cons_of_mem a h)
          · simp at h
    · rcases ih (a :: acc) w hw c hc with h | h
      · exact Or.inl (List.mem_cons_of_mem a h)
      · rcases List.mem_cons.mp h with rfl | h'
        · exact Or.inl (List.mem_cons_self c as)
        · exact Or.inr h'

lemma wordsAux_nil (acc : List Char) :
    wordsAux [] acc = if acc = [] then [] else [acc.reverse] := rfl

lemma wordsAux_cons (c : Char) (l acc : List Char) :
    wordsAux (c :: l) acc =
      if pySpace c = true then
        if acc = [] then wordsAux l [] else acc.reverse :: wordsAux l []
      else wordsAux l (c :: acc) := rfl

lemma wordsAux_append_nonspace :
    ∀ (w l acc : List Char), (∀ c ∈ w, pySpace c = false) →
      wordsAux (w ++ l) acc = wordsAux l (w.reverse ++ acc) := by
  intro w
  induction w with
  | nil => intro l acc _; simp
  | cons c cs ih =>
    intro l acc h
    have hc : pySpace c = false := h c (List.mem_cons_self c cs)
    simp only [List.cons_append]
    rw [wordsAux_cons, if_neg (by simp [hc])]
    rw [ih l (c :: acc) fun d hd => h d (List.mem_cons_of_mem c hd)]
    congr 1
    simp

lemma wordsAux_nil_ne {acc : List Char} (h : acc ≠ []) :
    wordsAux [] acc = [acc.reverse] := by
  rw [wordsAux_nil, if_neg h]

lemma wordsAux_cons_space {l acc : List Char} (hc : pySpace ' ' = true)
    (h : acc ≠ []) : wordsAux (' ' :: l) acc = acc.reverse :: wordsAux l [] := by
  rw [wordsAux_cons, if_pos hc, if_neg h]

lemma pyWords_joinSpace {ws : List (List Char)} (h : ∀ w ∈ ws, IsWord w) :
    pyWords (joinSpace ws) = ws := by
  induction ws with
  | nil => rfl
  | cons w ws ih =>
    rcases h w (List.mem_cons_self w ws) with ⟨hne, hns⟩
    cases ws with
    | nil =>
      show wordsAux (joinSpace [w]) [] = [w]
      have hj : joinSpace [w] = w := by simp [joinSpace, List.intercalate]
      rw [hj, ← List.append_nil w, wordsAux_append_nonspace w [] [] hns,
        List.append_nil, wordsAux_nil_ne (by simpa using hne), List.reverse_reverse]
      simp
    | cons w' ws' =>
      have hjoin : joinSpace (w :: w' :: ws') = w ++ ' ' :: joinSpace (w' :: ws') := by
        simp [joinSpace, List.intercalate]
      show wordsAux (joinSpace (w :: w' :: ws')) [] = w :: w' :: ws'
      rw [hjoin, wordsAux_append_nonspace w _ [] hns]
      rw [List.append_nil]
      rw [wordsAux_cons_space (by decide) (by simpa using hne)]
      rw [List.reverse_reverse]
      exact congrArg (w :: ·) (ih fun x hx => h x (List.mem_cons_of_mem w hx))

/-! ### `str.strip` and `' '.join` structure lemmas -/

lemma dropWhile_pySpace_eq_self {l : List Char}
    (h : ∀ c, l.head? = some c → pySpace c = false) :
    l.dropWhile pySpace = l := by
  cases l with
  | nil => rfl
  | cons a t =>
    rw [List.dropWhile_cons, if_neg]
    simp [h a rfl]

lemma pyStrip_eq_self {l : List Char}
    (h1 : ∀ c, l.head? = some c → pySpace c = false)
    (h2 : ∀ c, l.reverse.head? = some c → pySpace c = false) :
    pyStrip l = l := by
  unfold pyStrip
  rw [dropWhile_pySpace_eq_self h1, dropWhile_pySpace_eq_self h2,
    List.reverse_reverse]

lemma joinSpace_cons (w : List Char) (ws : List (List Char)) :
    ∃ r, joinSpace (w :: ws) = w ++ r := by
  cases ws with
  | nil => exact ⟨[], by simp [joinSpace, List.intercalate]⟩
  | cons w' t => exact ⟨' ' :: joinSpace (w' :: t), by simp [joinSpace, List.intercalate]⟩

lemma joinSpace_cons_cons (w w' : List Char) (t : List (List Char)) :
    joinSpace (w :: w' :: t) = w ++ ' ' :: joinSpace (w' :: t) := by
  simp [joinSpace, List.intercalate]

lemma joinSpace_cons_ne_nil {w : List Char} (ws : List (List Char)) (h : w ≠ []) :
    joinSpace (w :: ws) ≠ [] := by
  rcases joinSpace_cons w ws with ⟨r, hr⟩
  rw [hr]
  simp [h]

lemma mem_joinSpace : ∀ (ws : List (List Char)) (c : Char),
    c ∈ joinSpace ws → c = ' ' ∨ ∃ w ∈ ws, c ∈ w := by
  intro ws
  induction ws with
  | nil => intro c hc; simp [joinSpace, List.intercalate] at hc
  | cons w t ih =>
    intro c hc
    cases t with
    | nil =>
      have : joinSpace [w] = w := by simp [joinSpace, List.intercalate]
      rw [this] at hc
      exact Or.inr ⟨w, List.mem_cons_self w [], hc⟩
    | cons w' t' =>
      rw [joinSpace_cons_cons] at hc
      rcases List.mem_append.mp hc with h | h
      · exact Or.inr ⟨w, List.mem_cons_self w _, h⟩
      · rcases List.mem_cons.mp h with rfl | h'
        · exact Or.inl rfl
        · rcases ih c h' with h'' | ⟨u, hu, hcu⟩
          · exact Or.inl h''
          · exact Or.inr ⟨u, List.mem_cons_of_mem w hu, hcu⟩

lemma joinSpace_head {ws : List (List Char)} (h : ∀ w ∈ ws, IsWord w) :
    ∀ c, (joinSpace ws).head? = some c → pySpace c = false := by
  intro c hc
  cases ws with
  | nil => simp [joinSpace, List.intercalate] at hc
  | cons w t =>
    rcases joinSpace_cons w t with ⟨r, hr⟩
    rcases h w (List.mem_cons_self w t) with ⟨hne, hns⟩
    rw [hr] at hc
    cases w with
    | nil => exact absurd rfl hne
    | cons a w' =>
      simp only [List.cons_append, List.head?_cons, Option.some.injEq] at hc
      rw [← hc]
      exact hns a (List.mem_cons_self a w')

lemma joinSpace_revhead : ∀ (ws : List (List Char)), (∀ w ∈ ws, IsWord w) →
    ∀ c, (joinSpace ws).reverse.head? = some c → pySpace c = false := by
  intro ws
  induction ws with
  | nil => intro _ c hc; simp [joinSpace, List.intercalate] at hc
  | cons w t ih =>
    intro h c hc
    rcases h w (List.mem_cons_self w t) with ⟨hne, hns⟩
    cases t with
    | nil =>
      have hw : joinSpace [w] = w := by simp [joinSpace, List.intercalate]
      rw [hw] at hc
      have hcmem : c ∈ w.reverse := by
        cases hrev : w.reverse with
        | nil => rw [hrev] at hc; simp at hc
        | cons a t' =>
          rw [hrev] at hc
          simp only [List.head?_cons, Option.some.injEq] at hc
          simp [← hc]
      exact hns c (List.mem_reverse.mp hcmem)
    | cons w' t' =>
      rw [joinSpace_cons_cons] at hc
      rcases h w' (List.mem_cons_of_mem w (List.mem_cons_self w' t')) with ⟨hne', _⟩
      have hj : joinSpace (w' :: t') ≠ [] := joinSpace_cons_ne_nil t' hne'
      rw [List.reverse_append, List.reverse_cons, List.head?_append] at hc
      have hrev : (joinSpace (w' :: t')).reverse ≠ [] := by
        simpa using hj
      have hc' : (joinSpace (w' :: t')).reverse.head? = some c := by
        rcases List.exists_cons_of_ne_nil hrev with ⟨a, t'', ha⟩
        rw [ha] at hc ⊢
        simp only [List.cons_append, List.head?_cons, Option.or] at hc
        simpa using hc
      exact ih (fun u hu => h u (List.mem_cons_of_mem w hu)) c hc'

lemma lowerChar_space : lowerChar ' ' = ' ' := by decide

lemma map_lowerChar_joinSpace : ∀ (ws : List (List Char)),
    (joinSpace ws).map lowerChar = joinSpace (ws.map (List.map lowerChar)) := by
  intro ws
  induction ws with
  | nil => rfl
  | cons w t ih =>
    cases t with
    | nil => simp [joinSpace, List.intercalate]
    | cons w' t' =>
      simp only [List.map_cons]
      rw [joinSpace_cons_cons, joinSpace_cons_cons, List.map_append, List.map_cons,
        lowerChar_space, ih]
      simp

/-! ### Idempotence of `normalize_text` -/

lemma normalize_text_fixed {ws : List (List Char)}
    (hcanon : ∀ w ∈ ws, IsWord w)
    (hstable : ∀ c ∈ joinSpace ws, nfkdChar c = [c])
    (hlower : ∀ w ∈ ws, w.map lowerChar = w) :
    normalize_text (joinSpace ws) = joinSpace ws := by
  by_cases h0 : joinSpace ws = []
  · rw [h0]; rfl
  · simp only [normalize_text, if_neg h0]
    rw [pyStrip_eq_self (joinSpace_head hcanon) (joinSpace_revhead ws hcanon),
      nfkd_eq_self hstable, pyWords_joinSpace hcanon, map_lowerChar_joinSpace]
    congr 1
    calc ws.map (List.map lowerChar) = ws.map id := List.map_congr_left hlower
      _ = ws := List.map_id ws

lemma nfkdChar_space : nfkdChar ' ' = [' '] := by decide

/-- The canonical decomposition of the output words of `normalize_text`. -/
lemma normalize_text_eq_join {x : List Char} (hx : x ≠ []) :
    normalize_text x =
      joinSpace ((pyWords (nfkd (pyStrip x))).map (List.map lowerChar)) := by
  simp only [normalize_text, if_neg hx]
  exact map_lowerChar_joinSpace _

theorem normalize_text_idempotent (x : List Char) :
    normalize_text (normalize_text x) = normalize_text x := by
  by_cases hx : x = []
  · rw [hx]; rfl
  · set ws0 := pyWords (nfkd (pyStrip x)) with hws0
    have hcanon0 : ∀ w ∈ ws0, IsWord w := wordsAux_sound _ [] (by simp)
    set ws1 := ws0.map (List.map lowerChar) with hws1
    have hy1 : normalize_text x = joinSpace ws1 := normalize_text_eq_join hx
    have hcanon1 : ∀ w ∈ ws1, IsWord w := by
      intro w hw
      rcases List.mem_map.mp hw with ⟨w0, hw0, rfl⟩
      rcases hcanon0 w0 hw0 with ⟨hne, hns⟩
      refine ⟨by simpa using hne, ?_⟩
      intro c hc
      rcases List.mem_map.mp hc with ⟨d, hd, rfl⟩
      rw [pySpace_lowerChar]
      exact hns d hd
    have hstable1 : ∀ c ∈ joinSpace ws1, nfkdChar c = [c] := by
      intro c hc
      rcases mem_joinSpace ws1 c hc with rfl | ⟨w, hw, hcw⟩
      · exact nfkdChar_space
      · rcases List.mem_map.mp hw with ⟨w0, hw0, rfl⟩
        rcases List.mem_map.mp hcw with ⟨d, hd, rfl⟩
        apply nfkdChar_lowerChar
        rcases wordsAux_chars (nfkd (pyStrip x)) [] w0 hw0 d hd with hmem | hmem
        · exact nfkd_chars_stable hmem
        · simp at hmem
    have hlower1 : ∀ w ∈ ws1, w.map lowerChar = w := by
      intro w hw
      rcases List.mem_map.mp hw with ⟨w0, hw0, rfl⟩
      rw [List.map_map]
      exact List.map_congr_left fun c _ => lowerChar_idem c
    rw [hy1]
    exact normalize_text_fixed hcanon1 hstable1 hlower1

/-- C3: header normalization is idempotent and whitespace/case-insensitive:
`normalize(normalize(x)) = normalize(x)` for every string, `normalize("")`
returns `""`, and `normalize(" PT Cause No ")` equals
`normalize("pt   cause   no")` (trim, collapse internal whitespace runs,
lowercase, Unicode decomposition). -/
theorem claim_C3_normalize_idempotent :
    (∀ x : List Char, normalize_text (normalize_text x) = normalize_text x) ∧
    normalize_text [] = [] ∧
    normalize_text " PT Cause No ".toList = normalize_text "pt   cause   no".toList :=
  ⟨normalize_text_idempotent, rfl, by decide⟩

/-! ## Date format classification (`detect_date_format`,
analyze_trustees_csv.py:59-70 and 86-99)

Each entry of `self.date_formats` is embedded as an executable
recognizer equivalent to the anchored Python regex (`re.match`, i.e.
implicit `^`).  `\d`, `\w`, `\s` are modelled over the ASCII character
classes. -/

def isDigit (c : Char) : Bool := 48 ≤ c.toNat && c.toNat ≤ 57

/-- Python `\w` over ASCII: letters, digits, underscore. -/
def isWordChar (c : Char) : Bool :=
  (65 ≤ c.toNat && c.toNat ≤ 90) || (97 ≤ c.toNat && c.toNat ≤ 122) ||
  isDigit c || c.toNat = 95

/-- Regex `^\d{1,2}SEP\d{1,2}SEP\d{2,4}$` for a non-digit separator `sep`
(patterns 0, 1, 2 of `self.date_formats`). -/
def numericSep (sep : Char) (l : List Char) : Bool :=
  let p1 := l.span isDigit
  1 ≤ p1.1.length && p1.1.length ≤ 2 &&
  match p1.2 with
  | c :: r2 =>
    c = sep &&
    (let p2 := r2.span isDigit
     1 ≤ p2.1.length && p2.1.length ≤ 2 &&
     match p2.2 with
     | c2 :: r4 =>
       c2 = sep &&
       (let p3 := r4.span isDigit
        2 ≤ p3.1.length && p3.1.length ≤ 4 && p3.2.isEmpty)
     | [] => false)
  | [] => false

/-- Regex `^\d{4}-\d{2}-\d{2}` (pattern 3, ISO prefix; `re.match` leaves the
suffix unconstrained). -/
def isoShape (l : List Char) : Bool :=
  match l with
  | a :: b :: c :: d :: e :: f :: g :: h :: i :: j :: _ =>
    isDigit a && isDigit b && isDigit c && isDigit d && e = '-' &&
    isDigit f && isDigit g && h = '-' && isDigit i && isDigit j
  | _ => false

/-- A run of at least one whitespace character followed by the rest of a
pattern: `\s+` then continue with `k`. -/
def spacesThen (k : List Char → Bool) (l : List Char) : Bool :=
  let p := l.span pySpace
  1 ≤ p.1.length && k p.2

/-- A run of digits of length between `lo` and `hi` followed by the rest
of a pattern (valid when the next pattern element cannot match a digit). -/
def digitsThen (lo hi : Nat) (k : List Char → Bool) (l : List Char) : Bool :=
  let p := l.span isDigit
  lo ≤ p.1.length && p.1.length ≤ hi && k p.2

/-- Exactly `n` word characters, then continue. -/
def wordCharsThen : Nat → (List Char → Bool) → List Char → Bool
  | 0, k, l => k l
  | _ + 1, _, [] => false
  | n + 1, k, c :: cs => isWordChar c && wordCharsThen n k cs

/-- Regex `^\w{3}\s+\w{3}\s+\d{1,2}\s+\d{4}` (pattern 4, e.g. `Mon Nov 06 2000`). -/
def textualLong (l : List Char) : Bool :=
  wordCharsThen 3 (spacesThen (wordCharsThen 3 (spacesThen
    (digitsThen 1 2 (spacesThen (fun r =>
      match r with
      | a :: b :: c :: d :: _ => isDigit a && isDigit b && isDigit c && isDigit d
      | _ => false)))))) l

/-- Regex `^\d{1,2}\s+\w{3}\s+\d{4}` (pattern 5, e.g. `06 Nov 2000`). -/
def dayMonthText (l : List Char) : Bool :=
  digitsThen 1 2 (spacesThen (wordCharsThen 3 (spacesThen (fun r =>
    match r with
    | a :: b :: c :: d :: _ => isDigit a && isDigit b && isDigit c && isDigit d
    | _ => false)))) l

/-- Regex `^\w{3}\s+\d{1,2},?\s+\d{4}` (pattern 6, e.g. `Nov 06, 2000`). -/
def monthTextDay (l : List Char) : Bool :=
  wordCharsThen 3 (spacesThen (digitsThen 1 2 (fun r =>
    let r' := match r with
      | ',' :: t => t
      | t => t
    spacesThen (fun r2 =>
      match r2 with
      | a :: b :: c :: d :: _ => isDigit a && isDigit b && isDigit c && isDigit d
      | _ => false) r'))) l

/-- Regex `^\d{1,2}/\d{1,2}/$` (pattern 7, incomplete dates like `25/6/`). -/
def incompleteSlash (l : List Char) : Bool :=
  digitsThen 1 2 (fun r =>
    match r with
    | '/' :: r2 =>
      digitsThen 1 2 (fun r3 =>
        match r3 with
        | ['/'] => true
        | _ => false) r2
    | _ => false) l

/-- Regex `^/$` (pattern 8, a bare separator). -/
def bareSlash (l : List Char) : Bool := l = ['/']

/-- Regex `^\d{1,2}/\d{1,2}/\d{2}/\d{2}$` (pattern 9, malformed dates like
`4/4/24/23`). -/
def multiSlash (l : List Char) : Bool :=
  digitsThen 1 2 (fun r =>
    match r with
    | '/' :: r2 =>
      digitsThen 1 2 (fun r3 =>
        match r3 with
        | '/' :: r4 =>
          digitsThen 2 2 (fun r5 =>
            match r5 with
            | '/' :: r6 => digitsThen 2 2 (fun r7 => r7.isEmpty) r6
            | _ => false) r4
        | _ => false) r2
    | _ => false) l

/-- The list `self.date_formats` (analyze_trustees_csv.py:59-70), in source order. -/
def date_formats : List (List Char → Bool) :=
  [numericSep '/', numericSep '-', numericSep '.', isoShape,
   textualLong, dayMonthText, monthTextDay,
   incompleteSlash, bareSlash, multiSlash]

/-- Return values of `detect_date_format`: `format_i_<pattern>` keeps its
pattern index `i`; any non-empty value matching no pattern is
`unknown_format`. -/
inductive DateFormatResult : Type
  | format : Nat → DateFormatResult
  | unknown_format : DateFormatResult
deriving DecidableEq, Repr

/-- The `for i, pattern in enumerate(self.date_formats)` loop: index of
the first matching pattern. -/
def firstMatchIdx : List (List Char → Bool) → List Char → Option Nat
  | [], _ => none
  | p :: ps, v => if p v then some 0 else (firstMatchIdx ps v).map (· + 1)

/-- Embedding of `TrusteesCSVAnalyzer.detect_date_format`
(analyze_trustees_csv.py:86-99): `None` for an empty (or
whitespace-only) value, otherwise the tag of the first matching pattern
of `self.date_formats`, otherwise `unknown_format`. -/
def detect_date_format (value : List Char) : Option DateFormatResult :=
  if value = [] then none
  else
    let v := pyStrip value
    if v = [] then none
    else
      match firstMatchIdx date_formats v with
      | some i => some (DateFormatResult.format i)
      | none => some DateFormatResult.unknown_format

example : detect_date_format "4/4/2024".toList = some (.format 0) := by decide
example : detect_date_format "06-11-00".toList = some (.format 1) := by decide
example : detect_date_format "1954-20-20".toList = some (.format 3) := by decide
example : detect_date_format "Mon Nov 06 2000".toList = some (.format 4) := by decide
example : detect_date_format "06 Nov 2000".toList = some (.format 5) := by decide
example : detect_date_format "Nov 06, 2000".toList = some (.format 6) := by decide
example : detect_date_format "25/6/".toList = some (.format 7) := by decide
example : detect_date_format "/".toList = some (.format 8) := by decide
example : detect_date_format "4/4/24/23".toList = some (.format 9) := by decide
example : detect_date_format "hello".toList = some .unknown_format := by decide
example : detect_date_format "".toList = none := by decide
example : detect_date_format "   ".toList = none := by decide

lemma firstMatchIdx_spec :
    ∀ (ps : List (List Char → Bool)) (v : List Char) (i : Nat),
      i < ps.length → (ps.getD i (fun _ => false)) v = true →
      (∀ j, j < i → (ps.getD j (fun _ => false)) v = false) →
      firstMatchIdx ps v = some i := by
  intro ps
  induction ps with
  | nil => intro v i hi; simp at hi
  | cons p ps ih =>
    intro v i hi hpi hprev
    cases i with
    | zero =>
      simp only [List.getD_cons_zero] at hpi
      simp [firstMatchIdx, hpi]
    | succ n =>
      have hp0 : p v = false := by
        have := hprev 0 (Nat.succ_pos n)
        simpa using this
      simp only [firstMatchIdx, hp0, Bool.false_eq_true, if_false]
      rw [ih v n (by simpa using hi) (by simpa using hpi)
        (fun j hj => by simpa using hprev (j + 1) (Nat.succ_lt_succ hj))]
      rfl

lemma firstMatchIdx_eq_none :
    ∀ (ps : List (List Char → Bool)) (v : List Char),
      (∀ p ∈ ps, p v = false) → firstMatchIdx ps v = none := by
  intro ps
  induction ps with
  | nil => intro v _; rfl
  | cons p ps ih =>
    intro v h
    have hp : p v = false := h p (List.mem_cons_self p ps)
    simp only [firstMatchIdx, hp, Bool.false_eq_true, if_false]
    rw [ih v fun q hq => h q (List.mem_cons_of_mem p hq)]
    rfl

/-- Spec tag names for the pattern indices of `self.date_formats`:
pattern 9 (`^\d{1,2}/\d{1,2}/\d{2}/\d{2}$`) is the spec's
`malformed_multi_part`, pattern 7 (`^\d{1,2}/\d{1,2}/$`) is the spec's
`incomplete` (trailing-separator truncation). -/
def malformed_multi_part : DateFormatResult := DateFormatResult.format 9
def incomplete : DateFormatResult := DateFormatResult.format 7

/-- C2: the date-format classifier evaluates its closed pattern list in
fixed priority order and returns the tag of the first pattern that
matches; `"4/4/24/23"` gets `malformed_multi_part` (pattern 9, not any
earlier tag) and `"25/6/"` gets `incomplete` (pattern 7). -/
theorem claim_C2_first_match_priority :
    (∀ (v : List Char) (i : Nat), i < date_formats.length →
      (date_formats.getD i (fun _ => false)) (pyStrip v) = true →
      (∀ j, j < i → (date_formats.getD j (fun _ => false)) (pyStrip v) = false) →
      detect_date_format v = some (DateFormatResult.format i)) ∧
    detect_date_format "4/4/24/23".toList = some malformed_multi_part ∧
    detect_date_format "25/6/".toList = some incomplete := by
  refine ⟨?_, by decide, by decide⟩
  intro v i hi hpi hprev
  have hv' : pyStrip v ≠ [] := by
    intro h0
    rw [h0] at hpi
    have hall : ∀ k, k < date_formats.length →
        (date_formats.getD k (fun _ => false)) [] = false := by decide
    rw [hall i hi] at hpi
    exact Bool.false_ne_true hpi
  have hv : v ≠ [] := by
    intro h0
    apply hv'
    rw [h0]
    rfl
  simp only [detect_date_format, if_neg hv, if_neg hv']
  rw [firstMatchIdx_spec date_formats (pyStrip v) i hi hpi hprev]

theorem claim_C2_witness :
    detect_date_format "25/6/".toList = some incomplete :=
  claim_C2_first_match_priority.1 "25/6/".toList 7 (by decide) (by decide)
    (by decide)

/-- C7 counterexample: the claim says `classify("")` returns the tag
`unknown`, but `detect_date_format` returns `None` (no tag at all) for
the empty string. -/
theorem claim_C7_counterexample :
    detect_date_format [] = none ∧
    (none : Option DateFormatResult) ≠ some DateFormatResult.unknown_format :=
  ⟨rfl, by decide⟩

/-- C7 as amended: the classifier is total (a Lean function, and the
Python body only performs truthiness tests, `strip` and `re.match`,
none of which raise); it returns `None` exactly for empty or
whitespace-only input, and `unknown_format` for any other string that
matches none of the enumerated patterns. -/
theorem claim_C7_amended_total_unknown :
    (∀ v : List Char, detect_date_format v = none ↔ pyStrip v = []) ∧
    (∀ v : List Char, pyStrip v ≠ [] →
      (∀ p ∈ date_formats, p (pyStrip v) = false) →
      detect_date_format v = some DateFormatResult.unknown_format) := by
  constructor
  · intro v
    constructor
    · intro h
      by_cases hv : v = []
      · rw [hv]; rfl
      · by_cases hv' : pyStrip v = []
        · exact hv'
        · simp only [detect_date_format, if_neg hv, if_neg hv'] at h
          split at h <;> simp at h
    · intro h
      by_cases hv : v = []
      · simp [detect_date_format, hv]
      · simp [detect_date_format, if_neg hv, h]
  · intro v hv' hall
    have hv : v ≠ [] := by
      intro h0
      apply hv'
      rw [h0]
      rfl
    simp only [detect_date_format, if_neg hv, if_neg hv']
    rw [firstMatchIdx_eq_none date_formats (pyStrip v) hall]

theorem claim_C7_witness :
    detect_date_format "   ".toList = none ∧
    detect_date_format "hello".toList = some DateFormatResult.unknown_format :=
  ⟨(claim_C7_amended_total_unknown.1 "   ".toList).mpr (by decide),
   claim_C7_amended_total_unknown.2 "hello".toList (by decide) (by decide)⟩

/-! ## ISO-date semantic validation (analyze_societies_simple.py:71-82)

The societies analyzer, for each value in a date-bearing column, matches
the prefix regex `\d{4}-\d{2}-\d{2}`, splits the value on `'-'`, parses
the first three groups with Python `int()`, and records an
`Invalid date` issue when month/day are out of range or a
`Malformed date` issue when `int()` raises `ValueError`; a value in
range records no issue.  `IsoTag` names these outcomes with the spec's
format tags. -/

/-- Python `date_str.split('-')` (returns `[""]` on the empty string, like
Python).  `acc` holds the current group, reversed. -/
def splitDashAux : List Char → List Char → List (List Char)
  | [], acc => [acc.reverse]
  | c :: cs, acc =>
    if c = '-' then acc.reverse :: splitDashAux cs []
    else splitDashAux cs (c :: acc)

def splitDash (l : List Char) : List (List Char) := splitDashAux l []

/-- Whether a character sequence is a valid Python integer-literal digit
run: digits, possibly with single underscores between digits. -/
def digitsURest : List Char → Bool
  | [] => true
  | c :: cs =>
    if c = '_' then
      match cs with
      | [] => false
      | d :: cs' => isDigit d && digitsURest cs'
    else isDigit c && digitsURest cs

def digitsU : List Char → Bool
  | [] => false
  | c :: cs => isDigit c && digitsURest cs

/-- Numeric value of a digit run (underscores ignored). -/
def digitsVal (l : List Char) : Nat :=
  (l.filter (fun c => c ≠ '_')).foldl (fun n c => 10 * n + (c.toNat - 48)) 0

/-- Model of Python `int(str)`: optional surrounding whitespace, optional
sign, then a digit run with optional single underscores between digits
(ASCII digits).  `none` models `ValueError`. -/
def pyInt (l : List Char) : Option Int :=
  match pyStrip l with
  | [] => none
  | c :: rest =>
    if c = '+' then
      if digitsU rest then some ((digitsVal rest : Nat) : Int) else none
    else if c = '-' then
      if digitsU rest then some (-((digitsVal rest : Nat) : Int)) else none
    else if digitsU (c :: rest) then some ((digitsVal (c :: rest) : Nat) : Int)
    else none

example : pyInt "1954".toList = some 1954 := by decide
example : pyInt " 20 ".toList = some 20 := by decide
example : pyInt "-7".toList = some (-7) := by decide
example : pyInt "2_0".toList = some 20 := by decide
example : pyInt "28foo".toList = none := by decide
example : pyInt "".toList = none := by decide

/-- Outcomes of the inline ISO validation, named with the spec's format
tags: no issue recorded = `iso_date`; an `Invalid date` issue =
`iso_date_invalid_range`; a `Malformed date` issue (from `ValueError`) =
`iso_date_malformed`; prefix regex did not match = `not_iso`. -/
inductive IsoTag : Type
  | iso_date | iso_date_invalid_range | iso_date_malformed | not_iso
deriving DecidableEq, Repr

/-- The ISO-date branch of `analyze_csv_file`
(analyze_societies_simple.py:71-82) on an already-stripped value.  The
`len(parts) >= 3` guard records nothing when it fails (tagged
`iso_date`); it is in fact unreachable under the regex guard, as proved
below. -/
def check_iso_date (date_str : List Char) : IsoTag :=
  if isoShape date_str then
    let parts := splitDash date_str
    if 3 ≤ parts.length then
      match pyInt (parts.getD 0 []), pyInt (parts.getD 1 []), pyInt (parts.getD 2 []) with
      | some _year, some month, some day =>
        if month > 12 ∨ day > 31 ∨ month < 1 ∨ day < 1 then
          IsoTag.iso_date_invalid_range
        else IsoTag.iso_date
      | _, _, _ => IsoTag.iso_date_malformed
    else IsoTag.iso_date
  else IsoTag.not_iso

example : check_iso_date "1954-20-20".toList = .iso_date_invalid_range := by decide
example : check_iso_date "2001-02-28".toList = .iso_date := by decide
example : check_iso_date "2001-02-28T10:00".toList = .iso_date_malformed := by decide
example : check_iso_date "25/6/".toList = .not_iso := by decide

lemma isDigit_ne_dash {c : Char} (h : isDigit c = true) : c ≠ '-' := by
  intro he
  subst he
  exact absurd h (by decide)

lemma splitDashAux_length_pos : ∀ (l acc : List Char),
    1 ≤ (splitDashAux l acc).length := by
  intro l
  induction l with
  | nil => intro acc; simp [splitDashAux]
  | cons c cs ih =>
    intro acc
    unfold splitDashAux
    split
    · simp
    · exact ih (c :: acc)

lemma isoShape_decomp {s : List Char} (h : isoShape s = true) :
    ∃ a b c d f g i j rest,
      s = a :: b :: c :: d :: '-' :: f :: g :: '-' :: i :: j :: rest ∧
      isDigit a = true ∧ isDigit b = true ∧ isDigit c = true ∧
      isDigit d = true ∧ isDigit f = true ∧ isDigit g = true ∧
      isDigit i = true ∧ isDigit j = true := by
  unfold isoShape at h
  split at h
  · next a b c d e f g hh i j rest =>
    simp only [Bool.and_eq_true, decide_eq_true_eq] at h
    obtain ⟨⟨⟨⟨⟨⟨⟨⟨⟨ha, hb⟩, hc⟩, hd⟩, he⟩, hf⟩, hg⟩, hhh⟩, hi⟩, hj⟩ := h
    subst he
    subst hhh
    exact ⟨a, b, c, d, f, g, i, j, rest, rfl, ha, hb, hc, hd, hf, hg, hi, hj⟩
  · exact absurd h (by simp)

lemma isoShape_splitDash_length {s : List Char} (h : isoShape s = true) :
    3 ≤ (splitDash s).length := by
  rcases isoShape_decomp h with
    ⟨a, b, c, d, f, g, i, j, rest, rfl, ha, hb, hc, hd, hf, hg, hi, hj⟩
  have step : splitDash (a :: b :: c :: d :: '-' :: f :: g :: '-' :: i :: j :: rest) =
      [a, b, c, d] :: [f, g] :: splitDashAux (i :: j :: rest) [] := by
    simp [splitDash, splitDashAux, isDigit_ne_dash ha, isDigit_ne_dash hb,
      isDigit_ne_dash hc, isDigit_ne_dash hd, isDigit_ne_dash hf,
      isDigit_ne_dash hg]
  rw [step]
  have := splitDashAux_length_pos (i :: j :: rest) []
  simp only [List.length_cons]
  omega

/-- C1: on every string matching the ISO shape `YYYY-MM-DD` (prefix
regex), the classifier semantically validates the extracted
year/month/day integers: month outside 1-12 or day outside 1-31 gives
`iso_date_invalid_range`; any of the first three dash-separated groups
failing to parse as an integer gives `iso_date_malformed`; otherwise the
tag is `iso_date`.  `classify("1954-20-20")` is `iso_date_invalid_range`
and `classify("2001-02-28")` is `iso_date`. -/
theorem claim_C1_iso_semantic_validation :
    (∀ s : List Char, isoShape s = true →
      (∀ y m d : Int,
        pyInt ((splitDash s).getD 0 []) = some y →
        pyInt ((splitDash s).getD 1 []) = some m →
        pyInt ((splitDash s).getD 2 []) = some d →
        ((m < 1 ∨ 12 < m ∨ d < 1 ∨ 31 < d) →
          check_iso_date s = IsoTag.iso_date_invalid_range) ∧
        ((1 ≤ m ∧ m ≤ 12 ∧ 1 ≤ d ∧ d ≤ 31) →
          check_iso_date s = IsoTag.iso_date)) ∧
      ((pyInt ((splitDash s).getD 0 []) = none ∨
        pyInt ((splitDash s).getD 1 []) = none ∨
        pyInt ((splitDash s).getD 2 []) = none) →
        check_iso_date s = IsoTag.iso_date_malformed)) ∧
    check_iso_date "1954-20-20".toList = IsoTag.iso_date_invalid_range ∧
    check_iso_date "2001-02-28".toList = IsoTag.iso_date := by
  refine ⟨?_, by decide, by decide⟩
  intro s hs
  have hlen := isoShape_splitDash_length hs
  constructor
  · intro y m d hy hm hd
    constructor
    · intro hrange
      simp only [check_iso_date, if_pos hs, if_pos hlen, hy, hm, hd]
      rw [if_pos (by omega)]
    · intro hok
      simp only [check_iso_date, if_pos hs, if_pos hlen, hy, hm, hd]
      rw [if_neg (by omega)]
  · intro hnone
    simp only [check_iso_date, if_pos hs, if_pos hlen]
    rcases h0 : pyInt ((splitDash s).getD 0 []) with _ | y' <;>
      rcases h1 : pyInt ((splitDash s).getD 1 []) with _ | m' <;>
        rcases h2 : pyInt ((splitDash s).getD 2 []) with _ | d' <;>
          first
            | rfl
            | (exfalso; rcases hnone with hx | hx | hx <;> simp_all)

theorem claim_C1_witness :
    check_iso_date "1954-11-22T05".toList = IsoTag.iso_date_malformed ∧
    check_iso_date "1954-00-10".toList = IsoTag.iso_date_invalid_range :=
  ⟨(claim_C1_iso_semantic_validation.1 "1954-11-22T05".toList (by decide)).2
      (Or.inr (Or.inr (by decide))),
   ((claim_C1_iso_semantic_validation.1 "1954-00-10".toList (by decide)).1
      1954 0 10 (by decide) (by decide) (by decide)).1 (by omega)⟩

/-! ## Fuzzy field matching (analyze_trustees_csv.py:186-235) -/

/-- The `stop_words` set of `fuzzy_match` (analyze_trustees_csv.py:221). -/
def stop_words : List (List Char) :=
  ["of", "the", "and", "or", "in", "on", "at", "to", "for", "with", "by"].map
    String.toList

/-- Computes `set(field.split()) - stop_words`. -/
def wordSet (field : List Char) : Finset (List Char) :=
  (pyWords field).toFinset \ stop_words.toFinset

/-- Embedding of `TrusteesCSVAnalyzer.fuzzy_match` (analyze_trustees_csv.py:215-235)
with the default threshold `0.7`: word sets after stop-word removal,
`len(common)/len(total) >= 0.7`.  The float arithmetic is modelled as
exact rationals; the comparison is written with denominators cleared
(`7*len(total) <= 10*len(common)`, valid since `total` is nonempty on
this branch) so that the definition evaluates in the kernel;
`claim_C5_fuzzy_similarity` proves it equivalent to the rational
similarity threshold. -/
def fuzzy_match (field1 field2 : List Char) : Bool :=
  if field1 = [] ∨ field2 = [] then false
  else if wordSet field1 = ∅ ∨ wordSet field2 = ∅ then false
  else
    decide (7 * (wordSet field1 ∪ wordSet field2).card ≤
      10 * (wordSet field1 ∩ wordSet field2).card)

/-- Whether `needle` is an initial segment of `hay`. -/
def startsWithChars : List Char → List Char → Bool
  | [], _ => true
  | _ :: _, [] => false
  | a :: as, b :: bs => a = b && startsWithChars as bs

/-- Python's substring test `needle in hay`. -/
def containsSub (needle : List Char) : List Char → Bool
  | [] => startsWithChars needle []
  | c :: cs => startsWithChars needle (c :: cs) || containsSub needle cs

example : containsSub "cause".toList "pt cause no".toList = true := by decide
example : containsSub "pt cause no".toList "pt_cause_no_(station)".toList = false := by
  decide

/-- Embedding of `TrusteesCSVAnalyzer.create_field_mapping`
(analyze_trustees_csv.py:186-213), parameterized by the standard-field
registry and the observed normalized header list (`all_fields` is a
Python set of already-normalized headers; it is modelled as a
duplicate-free list in iteration order).  Exact matches (header equal to
a normalized alias) are collected first, then headers not already
matched that pass one of the fuzzy tests (substring containment in
either direction, or token-overlap `fuzzy_match`) against some alias. -/
def create_field_mapping
    (standard_fields : List (List Char × List (List Char)))
    (all_fields : List (List Char)) : List (List Char × List (List Char)) :=
  standard_fields.map (fun sf =>
    let exact := all_fields.filter (fun field =>
      (sf.2.map normalize_text).contains field)
    let fuzzy := all_fields.filter (fun field =>
      !(exact.contains field) && sf.2.any (fun variation =>
        let nv := normalize_text variation
        containsSub nv field || containsSub field nv || fuzzy_match field nv))
    (sf.1, exact ++ fuzzy))

/-- C5's spec-side definition of token-overlap similarity: split on
whitespace into word sets, remove stop words, `|intersection|/|union|`,
with similarity 0 when either side is empty after stop-word removal. -/
def token_overlap_similarity (w1 w2 : Finset (List Char)) : ℚ :=
  if w1 = ∅ ∨ w2 = ∅ then 0
  else ((w1 ∩ w2).card : ℚ) / ((w1 ∪ w2).card : ℚ)

/-- C5: `fuzzy_match` succeeds exactly when the token-overlap similarity
of the stop-word-free word sets is at least 0.7, and the similarity is 0
(so the match fails) whenever either word set is empty after stop-word
removal. -/
theorem claim_C5_fuzzy_similarity :
    (∀ f1 f2 : List Char,
      fuzzy_match f1 f2 = true ↔
        (7 : ℚ)/10 ≤ token_overlap_similarity (wordSet f1) (wordSet f2)) ∧
    (∀ f1 f2 : List Char, (wordSet f1 = ∅ ∨ wordSet f2 = ∅) →
      token_overlap_similarity (wordSet f1) (wordSet f2) = 0 ∧
        fuzzy_match f1 f2 = false) := by
  have hsim0 : ∀ f1 f2 : List Char, (wordSet f1 = ∅ ∨ wordSet f2 = ∅) →
      token_overlap_similarity (wordSet f1) (wordSet f2) = 0 := by
    intro f1 f2 h
    unfold token_overlap_similarity
    rw [if_pos h]
  have hiff : ∀ f1 f2 : List Char,
      fuzzy_match f1 f2 = true ↔
        (7 : ℚ)/10 ≤ token_overlap_similarity (wordSet f1) (wordSet f2) := by
    intro f1 f2
    unfold fuzzy_match
    by_cases h0 : f1 = [] ∨ f2 = []
    · rw [if_pos h0]
      have hws : wordSet f1 = ∅ ∨ wordSet f2 = ∅ := by
        rcases h0 with rfl | rfl
        · left; decide
        · right; decide
      rw [hsim0 f1 f2 hws]
      simp
    · rw [if_neg h0]
      by_cases h1 : wordSet f1 = ∅ ∨ wordSet f2 = ∅
      · rw [if_pos h1, hsim0 f1 f2 h1]
        simp
      · rw [if_neg h1]
        push_neg at h1
        have hne : wordSet f1 ∪ wordSet f2 ≠ ∅ := by
          intro hu
          exact h1.1 (Finset.union_eq_empty.mp hu).1
        have hu : 0 < (wordSet f1 ∪ wordSet f2).card :=
          Finset.card_pos.mpr (Finset.nonempty_iff_ne_empty.mpr hne)
        unfold token_overlap_similarity
        rw [if_neg (by push_neg; exact h1)]
        rw [decide_eq_true_iff]
        rw [div_le_div_iff₀ (by norm_num) (by exact_mod_cast hu)]
        constructor
        · intro h
          have hq : (7 * (wordSet f1 ∪ wordSet f2).card : ℚ) ≤
              (10 * (wordSet f1 ∩ wordSet f2).card : ℚ) := by exact_mod_cast h
          push_cast at hq ⊢
          linarith
        · intro h
          have hq : (7 * (wordSet f1 ∪ wordSet f2).card : ℚ) ≤
              (10 * (wordSet f1 ∩ wordSet f2).card : ℚ) := by
            linarith
          exact_mod_cast hq
  exact ⟨hiff, fun f1 f2 h => ⟨hsim0 f1 f2 h, by
    have := (hiff f1 f2)
    rcases hb : fuzzy_match f1 f2 with _ | _
    · rfl
    · exfalso
      have h7 := this.mp hb
      rw [hsim0 f1 f2 h] at h7
      norm_num at h7⟩⟩

theorem claim_C5_witness :
    fuzzy_match "date of death".toList "death date".toList = true ∧
    token_overlap_similarity (wordSet "of the".toList)
      (wordSet "pt cause no".toList) = 0 ∧
    fuzzy_match "of the".toList "pt cause no".toList = false :=
  ⟨(claim_C5_fuzzy_similarity.1 "date of death".toList "death date".toList).mpr
      (by
        unfold token_overlap_similarity
        rw [if_neg (by decide)]
        rw [show (wordSet "date of death".toList ∩
            wordSet "death date".toList).card = 2 from by decide]
        rw [show (wordSet "date of death".toList ∪
            wordSet "death date".toList).card = 2 from by decide]
        norm_num),
   (claim_C5_fuzzy_similarity.2 "of the".toList "pt cause no".toList
      (Or.inl (by decide))).1,
   (claim_C5_fuzzy_similarity.2 "of the".toList "pt cause no".toList
      (Or.inl (by decide))).2⟩

/-- C4 counterexample: with canonical field `pt_cause_no` and aliases
`["pt cause no", "cause no"]` over the observed normalized headers
`{"pt cause no", "pt_cause_no_(station)", "folio no"}`, the header
`"pt_cause_no_(station)"` is NOT matched (the claim says it is matched
by the fuzzy substring pass, but underscores block substring containment
in both directions and its token overlap with every alias is 0). -/
theorem claim_C4_counterexample :
    "pt_cause_no_(station)".toList ∉
      ((create_field_mapping
        [("pt_cause_no".toList, ["pt cause no".toList, "cause no".toList])]
        ["pt cause no".toList, "pt_cause_no_(station)".toList,
          "folio no".toList]).getD 0 ([], [])).2 := by decide

/-- C4 as amended: with those aliases and observed headers, the field
mapping for `pt_cause_no` matches exactly the header `"pt cause no"`
(by the exact pass); neither `"pt_cause_no_(station)"` nor `"folio no"`
is matched by the exact or fuzzy pass. -/
theorem claim_C4_amended_mapping :
    create_field_mapping
        [("pt_cause_no".toList, ["pt cause no".toList, "cause no".toList])]
        ["pt cause no".toList, "pt_cause_no_(station)".toList,
          "folio no".toList] =
      [("pt_cause_no".toList, ["pt cause no".toList])] := by decide

/-! ## Per-file analysis and quality aggregation
(analyze_trustees_csv.py:101-184, 324-349, 369-409)

`RawTable` models the parsed contents of one CSV file as delivered by
`pd.read_csv`: pandas turns an empty cell into NaN, modelled here as the
empty string; rows shorter than the header row are NaN-padded, modelled
by `cellAt` defaulting to the empty string.  `analyze_file` takes
`none` when every encoding attempt failed (`df is None`). -/

structure RawTable : Type where
  headers : List (List Char)
  rows : List (List (List Char))
deriving DecidableEq, Repr

/-- Cell of a row at column `i` (empty string when the row is short). -/
def cellAt (row : List (List Char)) (i : Nat) : List Char := row.getD i []

/-- Computes `len(df[header].dropna())` for column `i`: the number of rows whose
cell at `i` is non-empty (non-NaN). -/
def colNonNull (t : RawTable) (i : Nat) : Nat :=
  (t.rows.map (fun r => cellAt r i)).countP (fun c => !c.isEmpty)

/-- A row that survives `df.dropna(how='all')`: some cell non-empty. -/
def rowNonEmpty (r : List (List Char)) : Bool := r.any (fun c => !c.isEmpty)

/-- The parts of `file_info` produced by `TrusteesCSVAnalyzer.analyze_file`
that the quality aggregation reads. -/
structure FileInfo : Type where
  file_name : List Char
  headers : List (List Char)
  normalized_headers : List (List Char)
  total_rows : Nat
  non_empty_rows : Nat
  field_completion : List (List Char × Nat)
  errors : List (List Char)
deriving DecidableEq, Repr

/-- Embedding of `TrusteesCSVAnalyzer.analyze_file` (analyze_trustees_csv.py:101-184):
on a parse failure (`df is None`) the error is recorded and the file
info stays empty; otherwise headers are normalized, columns with an
empty normalized header are skipped, `field_completion` counts non-null
cells per kept column, and `non_empty_rows` counts rows that are not
entirely empty. -/
def analyze_file (file_name : List Char) (parsed : Option RawTable) : FileInfo :=
  match parsed with
  | none =>
    { file_name := file_name, headers := [], normalized_headers := [],
      total_rows := 0, non_empty_rows := 0, field_completion := [],
      errors := ["Could not read file with any encoding".toList] }
  | some t =>
    { file_name := file_name,
      headers := t.headers,
      normalized_headers := t.headers.map normalize_text,
      total_rows := t.rows.length,
      non_empty_rows := (t.rows.filter rowNonEmpty).length,
      field_completion :=
        t.headers.enum.filterMap (fun p =>
          if normalize_text p.2 = [] then none
          else some (normalize_text p.2, colNonNull t p.1)),
      errors := [] }

/-- Embedding of `run_analysis` (analyze_trustees_csv.py:324-349): analyze each file
in order; each entry pairs a file identifier with the parse outcome
delivered by the encoding-fallback collaborator. -/
def run_analysis (files : List (List Char × Option RawTable)) : List FileInfo :=
  files.map (fun p => analyze_file p.1 p.2)

/-- The global `self.field_variations` index: one
(normalized header, file name) registration per kept column
(analyze_trustees_csv.py:176). -/
def field_variations (infos : List FileInfo) : List (List Char × List Char) :=
  infos.flatMap (fun fi => fi.field_completion.map (fun q => (q.1, fi.file_name)))

/-- One record of `completeness_by_field`
(analyze_trustees_csv.py:383-388). -/
structure CompletenessEntry : Type where
  file : List Char
  completeness : ℚ
  filled_records : Nat
  total_records : Nat
deriving DecidableEq, Repr

/-- The records one file contributes to `completeness_by_field` in
`analyze_data_quality` (analyze_trustees_csv.py:377-388): one per
completed field when `non_empty_rows > 0`, nothing otherwise. -/
def quality_entries (fi : FileInfo) : List (List Char × CompletenessEntry) :=
  fi.field_completion.filterMap (fun q =>
    if 0 < fi.non_empty_rows then
      some (q.1, { file := fi.file_name,
                   completeness := (q.2 : ℚ) / (fi.non_empty_rows : ℚ) * 100,
                   filled_records := q.2,
                   total_records := fi.non_empty_rows })
    else none)

/-- Embedding of `analyze_data_quality` (analyze_trustees_csv.py:369-409), flattened:
the multiset of (field, record) pairs across all files. -/
def analyze_data_quality (infos : List FileInfo) : List (List Char × CompletenessEntry) :=
  infos.flatMap quality_entries

/-- The files that never reached the analyzed state (spec's
`fileFailures`): those with a recorded error. -/
def file_failures (infos : List FileInfo) : List FileInfo :=
  infos.filter (fun fi => !fi.errors.isEmpty)

lemma analyze_file_name (n : List Char) (pt : Option RawTable) :
    (analyze_file n pt).file_name = n := by
  cases pt <;> rfl

/-- Characterization of the records `quality_entries` produces for a
successfully parsed table. -/
lemma quality_entries_mem_spec {name : List Char} {t : RawTable}
    {f : List Char} {e : CompletenessEntry}
    (h : (f, e) ∈ quality_entries (analyze_file name (some t))) :
    ∃ i, i < t.headers.length ∧ f = normalize_text (t.headers.getD i []) ∧
      f ≠ [] ∧
      e.file = name ∧
      e.filled_records = colNonNull t i ∧
      e.total_records = (t.rows.filter rowNonEmpty).length ∧
      0 < (t.rows.filter rowNonEmpty).length ∧
      e.completeness = (e.filled_records : ℚ) / (e.total_records : ℚ) * 100 := by
  have hfc : (analyze_file name (some t)).field_completion =
      t.headers.enum.filterMap (fun p =>
        if normalize_text p.2 = [] then none
        else some (normalize_text p.2, colNonNull t p.1)) := rfl
  have hner : (analyze_file name (some t)).non_empty_rows =
      (t.rows.filter rowNonEmpty).length := rfl
  have hnm : (analyze_file name (some t)).file_name = name := rfl
  unfold quality_entries at h
  rw [hfc, hner, hnm, List.mem_filterMap] at h
  obtain ⟨q, hq, heq⟩ := h
  rw [List.mem_filterMap] at hq
  obtain ⟨p, hp, hpq⟩ := hq
  rw [List.mem_enum_iff_getElem?] at hp
  by_cases hz : normalize_text p.2 = []
  · rw [if_pos hz] at hpq
    exact absurd hpq (by simp)
  · rw [if_neg hz, Option.some_inj] at hpq
    subst hpq
    by_cases hpos : 0 < (t.rows.filter rowNonEmpty).length
    · rw [if_pos hpos, Option.some_inj, Prod.mk.injEq] at heq
      obtain ⟨hf, he⟩ := heq
      subst hf
      subst he
      have hlt : p.1 < t.headers.length := by
        rcases List.getElem?_eq_some.mp hp with ⟨hp1, _⟩
        exact hp1
      refine ⟨p.1, hlt, ?_, hz, rfl, rfl, rfl, hpos, rfl⟩
      rw [List.getD_eq_getElem?_getD, hp]
      rfl
    · rw [if_neg hpos] at heq
      exact absurd heq (by simp)

lemma rowNonEmpty_of_cell {r : List (List Char)} {i : Nat}
    (h : (cellAt r i).isEmpty = false) : rowNonEmpty r = true := by
  unfold cellAt at h
  unfold rowNonEmpty
  rw [List.any_eq_true]
  by_cases hlt : i < r.length
  · refine ⟨r[i], List.getElem_mem hlt, ?_⟩
    rw [List.getD_eq_getElem?_getD, List.getElem?_eq_getElem hlt] at h
    simpa using h
  · rw [List.getD_eq_getElem?_getD, List.getElem?_eq_none (by omega)] at h
    simp at h

lemma colNonNull_le_nonEmptyRows (t : RawTable) (i : Nat) :
    colNonNull t i ≤ (t.rows.filter rowNonEmpty).length := by
  rw [colNonNull, List.countP_map, ← List.countP_eq_length_filter]
  apply List.countP_mono_left
  intro r _ hr
  apply rowNonEmpty_of_cell
  simpa using hr

/-- The 10-row table of the C6 example: two columns, column `a` filled
in 7 of the 10 rows, no row entirely blank. -/
def tenRowTable : RawTable :=
  { headers := ["a".toList, "b".toList],
    rows := List.replicate 7 ["x".toList, "y".toList] ++
      List.replicate 3 [[], "y".toList] }

def tenRowEntryA : CompletenessEntry :=
  { file := "f".toList, completeness := ((7 : ℕ) : ℚ) / ((10 : ℕ) : ℚ) * 100,
    filled_records := 7, total_records := 10 }

lemma tenRow_mem :
    ("a".toList, tenRowEntryA) ∈
      analyze_data_quality [analyze_file "f".toList (some tenRowTable)] :=
  List.mem_cons_self _ _

/-- C6: per-file field completeness is computed for each header with a
non-empty normalized form as `percentage = filled/total*100`, where
`filled` counts rows whose cell is non-empty and `total` counts the
file's rows that are not entirely empty; a file with 10 non-blank rows
and a field filled in 7 of them yields
`{filled: 7, total: 10, percentage: 70}`; and a zero denominator yields
a defined no-data result (no record, no error) rather than a division
error. -/
theorem claim_C6_completeness_computation :
    (∀ (name : List Char) (t : RawTable) (f : List Char)
        (e : CompletenessEntry),
      (f, e) ∈ quality_entries (analyze_file name (some t)) →
      (∃ i, i < t.headers.length ∧ f = normalize_text (t.headers.getD i []) ∧
        f ≠ [] ∧ e.filled_records = colNonNull t i) ∧
      e.total_records = (t.rows.filter rowNonEmpty).length ∧
      0 < e.total_records ∧
      e.completeness = (e.filled_records : ℚ) / (e.total_records : ℚ) * 100) ∧
    (∀ fi : FileInfo, fi.non_empty_rows = 0 → quality_entries fi = []) ∧
    (∃ e : CompletenessEntry,
      ("a".toList, e) ∈
        analyze_data_quality [analyze_file "f".toList (some tenRowTable)] ∧
      e.filled_records = 7 ∧ e.total_records = 10 ∧ e.completeness = 70) := by
  refine ⟨?_, ?_, ?_⟩
  · intro name t f e h
    obtain ⟨i, hlt, hf, hfne, _, hfill, htot, hpos, hcomp⟩ :=
      quality_entries_mem_spec h
    exact ⟨⟨i, hlt, hf, hfne, hfill⟩, htot, htot ▸ hpos, hcomp⟩
  · intro fi h
    simp [quality_entries, h]
  · refine ⟨tenRowEntryA, tenRow_mem, rfl, rfl, ?_⟩
    show ((7 : ℕ) : ℚ) / ((10 : ℕ) : ℚ) * 100 = 70
    norm_num

theorem claim_C6_witness :
    tenRowEntryA.completeness =
      (tenRowEntryA.filled_records : ℚ) / (tenRowEntryA.total_records : ℚ) * 100 ∧
    tenRowEntryA.total_records = 10 :=
  ⟨((claim_C6_completeness_computation.1 "f".toList tenRowTable "a".toList
      tenRowEntryA tenRow_mem).2.2.2),
   ((claim_C6_completeness_computation.1 "f".toList tenRowTable "a".toList
      tenRowEntryA tenRow_mem).2.1)⟩

/-- C10: every per-field completeness entry produced by the quality
aggregation over any batch of files satisfies
`filled_records ≤ total_records`, and the reported percentage lies in
[0, 100]. -/
theorem claim_C10_completeness_bounds :
    ∀ (files : List (List Char × Option RawTable)) (f : List Char)
      (e : CompletenessEntry),
      (f, e) ∈ analyze_data_quality (run_analysis files) →
      e.filled_records ≤ e.total_records ∧
      0 ≤ e.completeness ∧ e.completeness ≤ 100 := by
  intro files f e hmem
  rw [analyze_data_quality, List.mem_flatMap] at hmem
  obtain ⟨fi, hfi, hin⟩ := hmem
  rw [run_analysis, List.mem_map] at hfi
  obtain ⟨⟨n, pt⟩, hnp, rfl⟩ := hfi
  cases pt with
  | none => exact absurd hin (by simp [quality_entries, analyze_file])
  | some t =>
    obtain ⟨i, hlt, hfnorm, hfne, hfile, hfill, htot, hpos, hcomp⟩ :=
      quality_entries_mem_spec hin
    have hle : e.filled_records ≤ e.total_records := by
      rw [hfill, htot]
      exact colNonNull_le_nonEmptyRows t i
    refine ⟨hle, ?_, ?_⟩
    · rw [hcomp]
      positivity
    · rw [hcomp]
      have ht0 : (0 : ℚ) < (e.total_records : ℚ) := by
        rw [htot]
        exact_mod_cast hpos
      have hle' : (e.filled_records : ℚ) ≤ (e.total_records : ℚ) := by
        exact_mod_cast hle
      have h1 : (e.filled_records : ℚ) / (e.total_records : ℚ) ≤ 1 :=
        (div_le_one ht0).mpr hle'
      calc (e.filled_records : ℚ) / (e.total_records : ℚ) * 100
          ≤ 1 * 100 := by
            exact mul_le_mul_of_nonneg_right h1 (by norm_num)
        _ = 100 := by norm_num

theorem claim_C10_witness :
    tenRowEntryA.filled_records ≤ tenRowEntryA.total_records ∧
    0 ≤ tenRowEntryA.completeness ∧ tenRowEntryA.completeness ≤ 100 :=
  claim_C10_completeness_bounds
    [("f".toList, some tenRowTable)] "a".toList tenRowEntryA tenRow_mem

lemma quality_entries_failed (n : List Char) :
    quality_entries (analyze_file n none) = [] := rfl

lemma field_completion_failed (n : List Char) :
    (analyze_file n none).field_completion = [] := rfl

/-- C8: a file that fails to parse contributes zero completeness records
and no entries to the global field-variation index, appears exactly once
in the failure list with its identifier and failure reason, and leaves
both the analysis of every other file and the global aggregates exactly
as they would be with the failed file absent. -/
theorem claim_C8_failed_file_isolation :
    ∀ (pre post : List (List Char × Option RawTable)) (bad : List Char),
      (∀ p ∈ pre ++ post, p.1 ≠ bad) →
      quality_entries (analyze_file bad none) = [] ∧
      analyze_data_quality (run_analysis (pre ++ (bad, none) :: post)) =
        analyze_data_quality (run_analysis (pre ++ post)) ∧
      field_variations (run_analysis (pre ++ (bad, none) :: post)) =
        field_variations (run_analysis (pre ++ post)) ∧
      (file_failures (run_analysis (pre ++ (bad, none) :: post))).countP
          (fun fi => decide (fi.file_name = bad)) = 1 ∧
      (∀ fi ∈ file_failures (run_analysis (pre ++ (bad, none) :: post)),
        fi.file_name = bad →
          fi.errors = ["Could not read file with any encoding".toList]) ∧
      (run_analysis (pre ++ (bad, none) :: post)).filter
          (fun fi => decide (fi.file_name ≠ bad)) = run_analysis (pre ++ post) := by
  intro pre post bad hbad
  have hpre : ∀ p ∈ pre, p.1 ≠ bad := fun p hp =>
    hbad p (List.mem_append_left post hp)
  have hpost : ∀ p ∈ post, p.1 ≠ bad := fun p hp =>
    hbad p (List.mem_append_right pre hp)
  have hmap : ∀ (l : List (List Char × Option RawTable)), (∀ p ∈ l, p.1 ≠ bad) →
      ∀ fi ∈ run_analysis l, fi.file_name ≠ bad := by
    intro l hl fi hfi
    rw [run_analysis, List.mem_map] at hfi
    obtain ⟨p, hp, rfl⟩ := hfi
    rw [analyze_file_name]
    exact hl p hp
  refine ⟨rfl, ?_, ?_, ?_, ?_, ?_⟩
  · simp [run_analysis, analyze_data_quality, List.map_append,
      List.flatMap_append, quality_entries_failed]
  · simp [run_analysis, field_variations, List.map_append,
      List.flatMap_append, field_completion_failed]
  · rw [file_failures, List.countP_filter, run_analysis, List.map_append,
      List.map_cons, List.countP_append, List.countP_cons]
    have h1 : (List.map (fun p => analyze_file p.1 p.2) pre).countP
        (fun a => decide (a.file_name = bad) && !a.errors.isEmpty) = 0 := by
      rw [List.countP_eq_zero]
      intro fi hfi
      have := hmap pre hpre fi hfi
      simp [this]
    have h2 : (List.map (fun p => analyze_file p.1 p.2) post).countP
        (fun a => decide (a.file_name = bad) && !a.errors.isEmpty) = 0 := by
      rw [List.countP_eq_zero]
      intro fi hfi
      have := hmap post hpost fi hfi
      simp [this]
    rw [h1, h2]
    simp [analyze_file]
  · intro fi hfi hname
    rw [file_failures, List.mem_filter] at hfi
    obtain ⟨hfi, herr⟩ := hfi
    rw [run_analysis, List.mem_map] at hfi
    obtain ⟨p, hp, rfl⟩ := hfi
    rcases List.mem_append.mp hp with hp' | hp'
    · exact absurd (analyze_file_name p.1 p.2 ▸ hname) (hpre p hp')
    · rcases List.mem_cons.mp hp' with rfl | hp''
      · rfl
      · exact absurd (analyze_file_name p.1 p.2 ▸ hname) (hpost p hp'')
  · rw [run_analysis, run_analysis, List.map_append, List.map_cons,
      List.filter_append, List.map_append]
    have h1 : (List.map (fun p => analyze_file p.1 p.2) pre).filter
        (fun fi => decide (fi.file_name ≠ bad)) =
        List.map (fun p => analyze_file p.1 p.2) pre := by
      rw [List.filter_eq_self]
      intro fi hfi
      simp [hmap pre hpre fi hfi]
    have h2 : (List.map (fun p => analyze_file p.1 p.2) post).filter
        (fun fi => decide (fi.file_name ≠ bad)) =
        List.map (fun p => analyze_file p.1 p.2) post := by
      rw [List.filter_eq_self]
      intro fi hfi
      simp [hmap post hpost fi hfi]
    rw [h1, List.filter_cons]
    have hb : (decide ((analyze_file bad none).file_name ≠ bad)) = false := by
      simp [analyze_file_name]
    rw [hb]
    simp only [Bool.false_eq_true, if_false]
    rw [h2]

def fileT1 : RawTable := { headers := ["a".toList], rows := [["x".toList]] }
def fileT3 : RawTable := { headers := ["b".toList], rows := [["y".toList]] }

theorem claim_C8_witness :
    quality_entries (analyze_file "f2".toList none) = [] ∧
    analyze_data_quality (run_analysis
        ([("f1".toList, some fileT1)] ++ ("f2".toList, none) ::
          [("f3".toList, some fileT3)])) =
      analyze_data_quality (run_analysis
        ([("f1".toList, some fileT1)] ++ [("f3".toList, some fileT3)])) ∧
    field_variations (run_analysis
        ([("f1".toList, some fileT1)] ++ ("f2".toList, none) ::
          [("f3".toList, some fileT3)])) =
      field_variations (run_analysis
        ([("f1".toList, some fileT1)] ++ [("f3".toList, some fileT3)])) ∧
    (file_failures (run_analysis
        ([("f1".toList, some fileT1)] ++ ("f2".toList, none) ::
          [("f3".toList, some fileT3)]))).countP
        (fun fi => decide (fi.file_name = "f2".toList)) = 1 ∧
    (∀ fi ∈ file_failures (run_analysis
        ([("f1".toList, some fileT1)] ++ ("f2".toList, none) ::
          [("f3".toList, some fileT3)])),
      fi.file_name = "f2".toList →
        fi.errors = ["Could not read file with any encoding".toList]) ∧
    (run_analysis
        ([("f1".toList, some fileT1)] ++ ("f2".toList, none) ::
          [("f3".toList, some fileT3)])).filter
        (fun fi => decide (fi.file_name ≠ "f2".toList)) =
      run_analysis ([("f1".toList, some fileT1)] ++ [("f3".toList, some fileT3)]) :=
  claim_C8_failed_file_isolation [("f1".toList, some fileT1)]
    [("f3".toList, some fileT3)] "f2".toList (by decide)

/-! ## Short-row column access (analyze_societies_simple.py:46-48) -/

/-- Python `row[col_idx]`: `none` models an `IndexError`. -/
def pyIndex (row : List (List Char)) (i : Nat) : Option (List Char) := row[i]?

/-- Python `row[col_idx] if col_idx < len(row) else ''`
(analyze_societies_simple.py:47). -/
def cellValue (row : List (List Char)) (i : Nat) : Option (List Char) :=
  if i < row.length then pyIndex row i else some []

/-- Python `values = [row[col_idx] if col_idx < len(row) else '' for row in
data_rows]`. -/
def columnValues (rows : List (List (List Char))) (i : Nat) :
    List (Option (List Char)) :=
  rows.map (fun r => cellValue r i)

/-- C9: per-column cell access never raises an index error: the guarded
access always produces a value, equal to `row[i]` when `i < len(row)`
and to the empty string otherwise (that is, to the total `RawTable`
accessor `cellAt`). -/
theorem claim_C9_short_row_access :
    ∀ (row : List (List Char)) (i : Nat),
      cellValue row i ≠ none ∧
      cellValue row i = some (cellAt row i) ∧
      (i < row.length → cellValue row i = pyIndex row i) ∧
      (¬ i < row.length → cellValue row i = some []) ∧
      ∀ (rows : List (List (List Char))),
        columnValues rows i = rows.map (fun r => some (cellAt r i)) := by
  have hcell : ∀ (row : List (List Char)) (i : Nat),
      cellValue row i = some (cellAt row i) := by
    intro row i
    unfold cellValue pyIndex cellAt
    by_cases h : i < row.length
    · rw [if_pos h, List.getElem?_eq_getElem h, List.getD_eq_getElem?_getD,
        List.getElem?_eq_getElem h]
      rfl
    · rw [if_neg h, List.getD_eq_getElem?_getD,
        List.getElem?_eq_none (by omega)]
      rfl
  intro row i
  refine ⟨?_, hcell row i, ?_, ?_, ?_⟩
  · rw [hcell row i]
    simp
  · intro h
    unfold cellValue
    rw [if_pos h]
  · intro h
    unfold cellValue
    rw [if_neg h]
  · intro rows
    unfold columnValues
    exact List.map_congr_left fun r _ => hcell r i

theorem claim_C9_witness :
    cellValue ["x".toList] 5 = some [] ∧
    cellValue ["x".toList] 0 = pyIndex ["x".toList] 0 :=
  ⟨(claim_C9_short_row_access ["x".toList] 5).2.2.2.1 (by decide),
   (claim_C9_short_row_access ["x".toList] 0).2.2.1 (by decide)⟩
